import Mathlib

/-!
Verification development for the OpenVMM guest-memory mapping subsystem and
its companion crates, as described in the repository specification.

The development has three parts:
* `MeshProto` — a shallow embedding of the mesh node protocol `Uuid` type and
  its conversions (from `support/mesh/mesh_node/src/local_node/protocol.rs`).
* `CheckinGates` — a shallow embedding of the backend dispatch performed by
  `CheckinGatesCli::into_pipeline`
  (from `flowey/flowey_hvlite/src/pipelines/checkin_gates.rs`).
* `Membacking` — a model of the mapping-manager subsystem (range table,
  object cache, generation counter, removal quiesce).  The implementation
  files `manager.rs`, `mappable.rs`, `object_cache.rs`, `va_mapper.rs` are
  declared by `openvmm/membacking/src/mapping_manager/mod.rs` but their
  bodies are not available, so these definitions are modelled from the
  specification's description of the component contracts.
-/

namespace MeshProto

/-- The 16-byte protocol `Uuid` from
`support/mesh/mesh_node/src/local_node/protocol.rs`: a `#[repr(C)]` wrapper
around `[u8; 16]`, embedded as a function from byte index to byte value. -/
structure Uuid where
  bytes : Fin 16 → Nat
deriving DecidableEq

/-- `Uuid::ZERO`: the all-zero UUID constant. -/
def Uuid.ZERO : Uuid := ⟨fun _ => 0⟩

/-- `Uuid::is_zero`: compares the byte array against `[0; 16]`. -/
def Uuid.is_zero (u : Uuid) : Bool := decide (u.bytes = fun _ => 0)

/-- Modelled from the spec: `crate::common::Uuid`, referenced by the
conversions in `protocol.rs` but not itself under the available sources.
The conversion bodies (`Self(value.0)` in both directions) show it is a
tuple struct over the same `[u8; 16]` payload. -/
structure CommonUuid where
  bytes : Fin 16 → Nat
deriving DecidableEq

/-- `impl From<crate::common::Uuid> for Uuid`: `Self(value.0)`. -/
def protoOfCommon (value : CommonUuid) : Uuid := ⟨value.bytes⟩

/-- `impl From<Uuid> for crate::common::Uuid`: `Self(value.0)`. -/
def commonOfProto (value : Uuid) : CommonUuid := ⟨value.bytes⟩

end MeshProto

namespace CheckinGates

/-- `PipelineConfig` from `checkin_gates.rs`: PR or CI configuration. -/
inductive PipelineConfig where
  | Pr
  | Ci
deriving DecidableEq

/-- Modelled from the spec: the flowey `PipelineBackendHint` enumeration is
not under the available sources; `into_pipeline` matches on `Local` and
`Github` and rejects every other backend, and the hosted Azure DevOps
backend (`Ado`) is the remaining variant of the flowey pipeline layer. -/
inductive PipelineBackendHint where
  | Local
  | Ado
  | Github
deriving DecidableEq

/-- `RepoSource` outcomes computed by `into_pipeline` for the OpenVMM repo:
an existing local clone, or the repository the GitHub workflow runs in. -/
inductive RepoSource where
  | ExistingClone
  | GithubSelf
deriving DecidableEq

/-- The pipeline value built by `into_pipeline`, restricted to the fields the
claims are about: the GitHub display name and the list of emitted job
labels (in emission order). -/
structure Pipeline where
  ghName : String
  jobs : List String
deriving DecidableEq

/-- The pipeline state right after the trigger/name configuration block of
`into_pipeline` (lines 60–82): the name is set according to `config` and no
job has been emitted yet. -/
def pipelineAfterTriggers (config : PipelineConfig) : Pipeline :=
  match config with
  | .Ci => { ghName := "[flowey] OpenVMM CI", jobs := [] }
  | .Pr => { ghName := "[flowey] OpenVMM PR", jobs := [] }

/-- The `openvmm_repo_source` block of `into_pipeline` (lines 84–94):
`Local` uses an existing clone, `Github` uses the workflow's own repo, and
any other backend bails with the quoted error message. -/
def openvmmRepoSource (backend : PipelineBackendHint) :
    Except String RepoSource :=
  if backend = .Local then .ok .ExistingClone
  else if backend = .Github then .ok .GithubSelf
  else .error
    "Unsupported backend: Checkin Gates only supports Local and Github backends"

/-- The labels of the jobs emitted by `into_pipeline` once the repo source
has been resolved, in emission order (guide, rustdoc, fmt, per-arch build
jobs, openhcl, clippy/unit tests, vmm-tests, flowey local backend test, and
the final all-good gate job). -/
def allJobNames : List String :=
  ["build mdbook guide [x64-windows]",
   "build and check docs [x64-windows]",
   "build and check docs [x64-linux]",
   "xtask fmt (linux)",
   "xtask fmt (windows)",
   "build artifacts (not for VMM tests) [aarch64-windows]",
   "build artifacts (for VMM tests) [aarch64-windows]",
   "build artifacts (not for VMM tests) [x64-windows]",
   "build artifacts (for VMM tests) [x64-windows]",
   "build artifacts [aarch64-linux]",
   "build artifacts [x64-linux]",
   "build openhcl [aarch64-linux]",
   "build openhcl [x64-linux]",
   "clippy [windows], unit tests [x64-windows]",
   "clippy [linux, macos], unit tests [x64-linux]",
   "clippy [linux-musl, misc nostd], unit tests [x64-linux-musl]",
   "run vmm-tests [x64-windows-intel]",
   "run vmm-tests [x64-windows-amd]",
   "run vmm-tests [x64-linux]",
   "test flowey local backend",
   "openvmm checkin gates"]

/-- `CheckinGatesCli::into_pipeline`: configures triggers and the pipeline
name, resolves the repo source (bailing for unsupported backends before any
job is emitted), then emits the jobs. -/
def checkinGatesIntoPipeline (config : PipelineConfig)
    (backend : PipelineBackendHint) : Except String Pipeline :=
  let p := pipelineAfterTriggers config
  match openvmmRepoSource backend with
  | .error e => .error e
  | .ok _ => .ok { p with jobs := allJobNames }

end CheckinGates

namespace Membacking

/-- Modelled from the spec: a `GuestRange` is a half-open interval
`[start, stop)` of guest physical addresses (§3). -/
structure GuestRange where
  start : Nat
  stop : Nat
deriving DecidableEq

/-- Membership of an address in a half-open range. -/
def GuestRange.containsAddr (r : GuestRange) (a : Nat) : Bool :=
  decide (r.start ≤ a) && decide (a < r.stop)

/-- Intersection test for two half-open ranges. -/
def GuestRange.overlaps (r1 r2 : GuestRange) : Bool :=
  decide (r1.start < r2.stop) && decide (r2.start < r1.stop)

/-- Modelled from the spec: a committed backing assignment (§3,
`MappingEntry`): guest range, backing-object identity, offset into the
backing object, the host virtual base address of the mapped range, and the
generation at which the entry was committed. -/
structure MappingEntry where
  range : GuestRange
  identity : Nat
  objectOffset : Nat
  hostVaBase : Nat
  generation : Nat
deriving DecidableEq

/-- Modelled from the spec: one `ObjectCache` slot (§4.2, "Mappable
handle"): backing-object identity, host mapping base, and the open
reference count. -/
structure CacheEntry where
  identity : Nat
  base : Nat
  refs : Nat
deriving DecidableEq

/-- Modelled from the spec: the `ObjectCache` state — the open handles plus
event counters recording how many underlying host opens and closes have
been performed (used to state the dedup property of §4.2). -/
structure CacheState where
  entries : List CacheEntry
  opens : Nat
  closes : Nat
deriving DecidableEq

/-- The empty object cache. -/
def CacheState.empty : CacheState := ⟨[], 0, 0⟩

/-- Find the open handle for an identity, if any. -/
def CacheState.findEntry (st : CacheState) (ident : Nat) : Option CacheEntry :=
  st.entries.find? (fun e => e.identity == ident)

/-- Modelled from the spec: `ObjectCache::acquire` (§4.2) — return the
existing handle for `ident`, bumping its reference count, or open a new one
via the Mappable abstraction (`objBase` gives the host base address a fresh
mapping of the object receives) and insert it with count 1. -/
def acquire (objBase : Nat → Nat) (ident : Nat) (st : CacheState) :
    CacheState :=
  match st.findEntry ident with
  | some _ =>
    { st with
      entries := st.entries.map fun e =>
        if e.identity == ident then { e with refs := e.refs + 1 } else e }
  | none =>
    { st with
      entries := ⟨ident, objBase ident, 1⟩ :: st.entries
      opens := st.opens + 1 }

/-- Modelled from the spec: `ObjectCache::release` (§4.2) — decrement the
reference count of the handle for `ident`; when it reaches zero, unmap
(counted in `closes`) and evict the entry. -/
def release (ident : Nat) (st : CacheState) : CacheState :=
  match st.findEntry ident with
  | some e =>
    if e.refs ≤ 1 then
      { st with
        entries := st.entries.filter (fun e' => !(e'.identity == ident))
        closes := st.closes + 1 }
    else
      { st with
        entries := st.entries.map fun e' =>
          if e'.identity == ident then { e' with refs := e'.refs - 1 } else e' }
  | none => st

/-- A single object-cache operation. -/
inductive CacheOp where
  | acq (ident : Nat)
  | rel (ident : Nat)
deriving DecidableEq

/-- Apply one object-cache operation. -/
def applyCacheOp (objBase : Nat → Nat) (op : CacheOp) (st : CacheState) :
    CacheState :=
  match op with
  | .acq i => acquire objBase i st
  | .rel i => release i st

/-- Apply a sequence of object-cache operations, first element first. -/
def applyCacheOps (objBase : Nat → Nat) : List CacheOp → CacheState → CacheState
  | [], st => st
  | op :: rest, st => applyCacheOps objBase rest (applyCacheOp objBase op st)

/-- At most one open handle per distinct identity (§4.2 invariant). -/
def identsNodup (st : CacheState) : Prop :=
  (st.entries.map (fun e => e.identity)).Nodup

/-- Modelled from the spec: the `MappingManager` state (§4.3) — the range
table, the global generation counter, and the object cache it coordinates
with. -/
structure ManagerState where
  table : List MappingEntry
  gen : Nat
  cache : CacheState
deriving DecidableEq

/-- The initial manager state: empty table, generation 0, empty cache. -/
def ManagerState.empty : ManagerState := ⟨[], 0, CacheState.empty⟩

/-- Error kinds of the mapping manager (§7). -/
inductive MapError where
  | OverlapConflict
  | NotMapped
deriving DecidableEq

/-- Modelled from the spec: `MappingManager::insert` (§4.3) — fails with
`OverlapConflict` (leaving the state untouched) if the new range intersects
any existing entry; otherwise acquires the backing object through the
object cache, records the entry (whose host VA base is the object's host
base plus the object offset), and increments the generation counter. -/
def insertRange (objBase : Nat → Nat) (st : ManagerState) (r : GuestRange)
    (ident off : Nat) : Except MapError MappingEntry × ManagerState :=
  if st.table.any (fun e => r.overlaps e.range) then
    (.error .OverlapConflict, st)
  else
    let cache := acquire objBase ident st.cache
    let entry : MappingEntry := ⟨r, ident, off, objBase ident + off, st.gen + 1⟩
    (.ok entry, { table := entry :: st.table, gen := st.gen + 1, cache })

/-- Modelled from the spec: `MappingManager::remove` (§4.3) — fails with
`NotMapped` (leaving the state untouched) if no entry's range exactly
matches; otherwise removes the entry, increments the generation counter,
and releases the backing object reference through the object cache. -/
def removeRange (st : ManagerState) (r : GuestRange) :
    Except MapError Unit × ManagerState :=
  match st.table.find? (fun e => e.range == r) with
  | none => (.error .NotMapped, st)
  | some e =>
    (.ok (),
     { table := st.table.filter (fun e' => !(e'.range == r))
       gen := st.gen + 1
       cache := release e.identity st.cache })

/-- Modelled from the spec: `MappingManager::replace` (§4.3) — atomic
remove-plus-insert on an exactly matching range, bumping the generation
exactly once. -/
def replaceRange (objBase : Nat → Nat) (st : ManagerState) (r : GuestRange)
    (newIdent newOff : Nat) : Except MapError MappingEntry × ManagerState :=
  match st.table.find? (fun e => e.range == r) with
  | none => (.error .NotMapped, st)
  | some old =>
    let cache := acquire objBase newIdent (release old.identity st.cache)
    let entry : MappingEntry :=
      ⟨r, newIdent, newOff, objBase newIdent + newOff, st.gen + 1⟩
    (.ok entry,
     { table := entry :: st.table.filter (fun e' => !(e'.range == r))
       gen := st.gen + 1
       cache })

/-- Modelled from the spec: `MappingManager::lookup` (§4.3) — the committed
entry covering `a`, if any (`none` is `NotMapped`). -/
def lookupAddr (st : ManagerState) (a : Nat) : Option MappingEntry :=
  st.table.find? (fun e => e.range.containsAddr a)

/-- Modelled from the spec: `VaMapper::translate` on a cold cache (§4.5) —
resolve through `lookup` and add the in-range offset to the entry's host VA
base; `none` is the `Fault` result. -/
def translateAddr (st : ManagerState) (a : Nat) : Option Nat :=
  match lookupAddr st a with
  | some e => some (e.hostVaBase + (a - e.range.start))
  | none => none

/-- A structural operation or query on the mapping manager. -/
inductive MgrOp where
  | insert (r : GuestRange) (ident off : Nat)
  | remove (r : GuestRange)
  | replace (r : GuestRange) (ident off : Nat)
  | lookup (a : Nat)
deriving DecidableEq

/-- Whether the operation is a structural mutation (§3, generation
counter). -/
def MgrOp.isMutation : MgrOp → Bool
  | .lookup _ => false
  | _ => true

/-- Success flag of an `Except` result. -/
def exceptOk : Except MapError α → Bool
  | .ok _ => true
  | .error _ => false

/-- Apply one manager operation, returning whether it succeeded and the
resulting state. -/
def applyMgrOp (objBase : Nat → Nat) (st : ManagerState) :
    MgrOp → Bool × ManagerState
  | .insert r ident off =>
    let res := insertRange objBase st r ident off
    (exceptOk res.1, res.2)
  | .remove r =>
    let res := removeRange st r
    (exceptOk res.1, res.2)
  | .replace r ident off =>
    let res := replaceRange objBase st r ident off
    (exceptOk res.1, res.2)
  | .lookup a => ((lookupAddr st a).isSome, st)

/-- Run a sequence of insert requests `(range, identity, offset)` from a
starting state, failing (with `none`) if any insert fails. -/
def insertAll (objBase : Nat → Nat) :
    List (GuestRange × Nat × Nat) → ManagerState → Option ManagerState
  | [], st => some st
  | req :: rest, st =>
    match insertRange objBase st req.1 req.2.1 req.2.2 with
    | (.ok _, st') => insertAll objBase rest st'
    | (.error _, _) => none

/-- Modelled from the spec: the state of the removal-quiesce protocol
(§4.3, §5).  `mapped` holds the committed entries as `(range, host VA)`
pairs; `removing` holds entries whose range is in the transient `Removing`
state awaiting quiesce; `readers` holds the host VAs cited by in-flight
VaMapper translations (the reader epoch critical sections); `freed` holds
the host VAs whose underlying host mapping has been torn down. -/
structure QuiesceState where
  mapped : List (GuestRange × Nat)
  removing : List (GuestRange × Nat)
  readers : List Nat
  freed : List Nat
deriving DecidableEq

/-- Remove the first occurrence of an element from a list (the removal
performed when a translation ends or an entry finishes its removal). -/
def removeFirst {α : Type} [DecidableEq α] (e : α) : List α → List α
  | [] => []
  | x :: xs => if x = e then xs else x :: removeFirst e xs

/-- Modelled from the spec: the steps of the removal-quiesce protocol (§5).
A translation may begin citing a host VA only while the entry is still
committed (the fast path validates against the generation inside its
reader critical section, so a stale cached translation is discarded rather
than used); `remove` first moves the entry to the `Removing` state (new
lookups for it are rejected), and only the `completeRemove` step —
guarded on no in-flight reader still citing the entry's host VA — tears
the host mapping down. -/
inductive QStep : QuiesceState → QuiesceState → Prop where
  | beginTranslate {st : QuiesceState} (e : GuestRange × Nat)
      (he : e ∈ st.mapped) :
      QStep st { st with readers := e.2 :: st.readers }
  | endTranslate {st : QuiesceState} (va : Nat) (hv : va ∈ st.readers) :
      QStep st { st with readers := removeFirst va st.readers }
  | beginRemove {st : QuiesceState} (e : GuestRange × Nat)
      (he : e ∈ st.mapped) :
      QStep st { st with
        mapped := removeFirst e st.mapped
        removing := e :: st.removing }
  | completeRemove {st : QuiesceState} (e : GuestRange × Nat)
      (he : e ∈ st.removing) (hq : e.2 ∉ st.readers) :
      QStep st { st with
        removing := removeFirst e st.removing
        freed := e.2 :: st.freed }

/-- A state of the quiesce protocol used to instantiate the main safety
theorem: one committed entry, nothing in flight. -/
def qSample : QuiesceState := ⟨[(⟨0x1000, 0x2000⟩, 0x7000)], [], [], []⟩

/-- An initial state of the quiesce protocol: no translation in flight, no
removal pending, nothing freed, and the committed entries' host VAs are
pairwise distinct (each committed mapping occupies its own host virtual
address). -/
def QInit (st : QuiesceState) : Prop :=
  st.readers = [] ∧ st.removing = [] ∧ st.freed = [] ∧
    (st.mapped.map Prod.snd).Nodup

/-- The inductive invariant of the quiesce protocol: live (mapped or
removing) host VAs are pairwise distinct and not yet freed, and no
in-flight translation cites freed memory. -/
def QInv (st : QuiesceState) : Prop :=
  ((st.mapped ++ st.removing).map Prod.snd).Nodup ∧
    (∀ va ∈ (st.mapped ++ st.removing).map Prod.snd, va ∉ st.freed) ∧
    (∀ va ∈ st.readers, va ∉ st.freed)

/-- State after the first insert of the concrete scenario (§8): the range
`[0x1000, 0x2000)` backed by object `0` at offset `0`. -/
def scnSt1 (f : Nat → Nat) : ManagerState :=
  (insertRange f ManagerState.empty ⟨0x1000, 0x2000⟩ 0 0).2

/-- State after the second insert of the concrete scenario: the adjacent
range `[0x2000, 0x3000)` backed by object `0` at offset `0x1000`. -/
def scnSt2 (f : Nat → Nat) : ManagerState :=
  (insertRange f (scnSt1 f) ⟨0x2000, 0x3000⟩ 0 0x1000).2

/-- State after removing `[0x1000, 0x2000)` from the scenario. -/
def scnSt3 (f : Nat → Nat) : ManagerState :=
  (removeRange (scnSt2 f) ⟨0x1000, 0x2000⟩).2

/-- The request data recorded in a mapping entry: its range, backing-object
identity, and object offset. -/
def entryReq (e : MappingEntry) : GuestRange × Nat × Nat :=
  (e.range, e.identity, e.objectOffset)

/-- The table invariant of §3: registered ranges are pairwise
non-overlapping. -/
def tableOk (st : ManagerState) : Prop :=
  st.table.Pairwise (fun e1 e2 => e1.range.overlaps e2.range = false)

end Membacking

namespace MeshProto

/-- C8: `protocol::Uuid::is_zero` returns `true` exactly when all 16 bytes
are zero; in particular `Uuid::ZERO.is_zero()` holds, and a UUID with any
non-zero byte yields `false`. -/
theorem uuid_is_zero_iff_all_bytes_zero :
    (∀ u : Uuid, u.is_zero = true ↔ ∀ i : Fin 16, u.bytes i = 0) ∧
      Uuid.ZERO.is_zero = true ∧
      ∀ (u : Uuid) (i : Fin 16), u.bytes i ≠ 0 → u.is_zero = false := by
  refine ⟨fun u => ?_, decide_eq_true rfl, fun u i hne => ?_⟩
  · constructor
    · intro h i
      exact congrFun (of_decide_eq_true h) i
    · intro h
      exact decide_eq_true (funext fun i => h i)
  · exact decide_eq_false fun heq => hne (congrFun heq i)

/-- Witness for C8 at a concrete UUID with a non-zero byte. -/
theorem uuid_is_zero_iff_all_bytes_zero_witness :
    (Uuid.mk fun _ => 1).bytes 0 ≠ 0 ∧ (Uuid.mk fun _ => 1).is_zero = false :=
  ⟨by decide, uuid_is_zero_iff_all_bytes_zero.2.2 (Uuid.mk fun _ => 1) 0 (by decide)⟩

/-- C9: the two `From` conversions between `protocol::Uuid` and
`common::Uuid` are mutually inverse and preserve the 16-byte payload
exactly. -/
theorem uuid_conversions_roundtrip :
    (∀ u : CommonUuid, commonOfProto (protoOfCommon u) = u) ∧
      (∀ v : Uuid, protoOfCommon (commonOfProto v) = v) ∧
      (∀ u : CommonUuid, (protoOfCommon u).bytes = u.bytes) ∧
      ∀ v : Uuid, (commonOfProto v).bytes = v.bytes :=
  ⟨fun _ => rfl, fun _ => rfl, fun _ => rfl, fun _ => rfl⟩

end MeshProto

namespace CheckinGates

/-- C10: for every configuration and every backend hint other than `Local`
and `Github`, `into_pipeline` bails with the unsupported-backend error, and
at that point in the construction no job has been emitted yet. -/
theorem checkin_gates_rejects_other_backends
    (config : PipelineConfig) (backend : PipelineBackendHint)
    (h1 : backend ≠ .Local) (h2 : backend ≠ .Github) :
    checkinGatesIntoPipeline config backend =
      .error
        "Unsupported backend: Checkin Gates only supports Local and Github backends" ∧
      (pipelineAfterTriggers config).jobs = [] := by
  cases backend with
  | Local => exact absurd rfl h1
  | Github => exact absurd rfl h2
  | Ado => exact ⟨rfl, by cases config <;> rfl⟩

/-- Witness for C10 at the ADO backend with the PR configuration. -/
theorem checkin_gates_rejects_other_backends_witness :
    (PipelineBackendHint.Ado ≠ .Local ∧ PipelineBackendHint.Ado ≠ .Github) ∧
      checkinGatesIntoPipeline .Pr .Ado =
        .error
          "Unsupported backend: Checkin Gates only supports Local and Github backends" ∧
      (pipelineAfterTriggers .Pr).jobs = [] :=
  ⟨⟨by decide, by decide⟩,
    checkin_gates_rejects_other_backends .Pr .Ado (by decide) (by decide)⟩

end CheckinGates

namespace Membacking

/-- C2: inserting a guest range that overlaps an existing entry fails with
`OverlapConflict` and returns the manager state unchanged. -/
theorem insert_overlap_conflict (objBase : Nat → Nat) (st : ManagerState)
    (r : GuestRange) (ident off : Nat) (e : MappingEntry)
    (he : e ∈ st.table) (hov : r.overlaps e.range = true) :
    insertRange objBase st r ident off = (.error .OverlapConflict, st) := by
  have hany : st.table.any (fun e' => r.overlaps e'.range) = true :=
    List.any_eq_true.2 ⟨e, he, hov⟩
  simp [insertRange, hany]

/-- Witness for C2: inserting `[1, 3)` over an existing `[0, 2)` entry. -/
theorem insert_overlap_conflict_witness :
    ((⟨⟨0, 2⟩, 5, 0, 7, 1⟩ : MappingEntry) ∈
        (⟨[⟨⟨0, 2⟩, 5, 0, 7, 1⟩], 1, ⟨[⟨5, 7, 1⟩], 1, 0⟩⟩ : ManagerState).table ∧
      GuestRange.overlaps ⟨1, 3⟩ ⟨0, 2⟩ = true) ∧
      insertRange (fun _ => 7)
          ⟨[⟨⟨0, 2⟩, 5, 0, 7, 1⟩], 1, ⟨[⟨5, 7, 1⟩], 1, 0⟩⟩ ⟨1, 3⟩ 5 0 =
        (.error .OverlapConflict,
          ⟨[⟨⟨0, 2⟩, 5, 0, 7, 1⟩], 1, ⟨[⟨5, 7, 1⟩], 1, 0⟩⟩) :=
  ⟨⟨by decide, by decide⟩,
    insert_overlap_conflict (fun _ => 7)
      ⟨[⟨⟨0, 2⟩, 5, 0, 7, 1⟩], 1, ⟨[⟨5, 7, 1⟩], 1, 0⟩⟩ ⟨1, 3⟩ 5 0
      ⟨⟨0, 2⟩, 5, 0, 7, 1⟩ (by decide) (by decide)⟩

/-- C4: removing a guest range that does not exactly match any entry fails
with `NotMapped` and returns the whole manager state (table, generation,
object cache) unchanged. -/
theorem remove_unmatched_not_mapped (st : ManagerState) (r : GuestRange)
    (h : ∀ e ∈ st.table, e.range ≠ r) :
    removeRange st r = (.error .NotMapped, st) := by
  have hfind : st.table.find? (fun e => e.range == r) = none :=
    List.find?_eq_none.2 fun e he => by simpa using h e he
  simp [removeRange, hfind]

/-- Witness for C4: removing `[5, 6)` from a table holding only `[0, 2)`. -/
theorem remove_unmatched_not_mapped_witness :
    (∀ e ∈ (⟨[⟨⟨0, 2⟩, 5, 0, 7, 1⟩], 1, ⟨[⟨5, 7, 1⟩], 1, 0⟩⟩ :
        ManagerState).table, e.range ≠ ⟨5, 6⟩) ∧
      removeRange ⟨[⟨⟨0, 2⟩, 5, 0, 7, 1⟩], 1, ⟨[⟨5, 7, 1⟩], 1, 0⟩⟩ ⟨5, 6⟩ =
        (.error .NotMapped,
          ⟨[⟨⟨0, 2⟩, 5, 0, 7, 1⟩], 1, ⟨[⟨5, 7, 1⟩], 1, 0⟩⟩) :=
  ⟨by decide, remove_unmatched_not_mapped _ _ (by decide)⟩

/-- C5: the generation counter never decreases across any manager
operation, and every successful structural mutation — insert, remove, and
replace (despite being a remove plus an insert) — increments it by exactly
one. -/
theorem generation_monotone_and_exact (objBase : Nat → Nat)
    (st : ManagerState) (op : MgrOp) :
    st.gen ≤ (applyMgrOp objBase st op).2.gen ∧
      ((applyMgrOp objBase st op).1 = true → op.isMutation = true →
        (applyMgrOp objBase st op).2.gen = st.gen + 1) := by
  cases op with
  | insert r ident off =>
    simp only [applyMgrOp, insertRange]
    split
    · simp [exceptOk]
    · simp [exceptOk]
  | remove r =>
    simp only [applyMgrOp, removeRange]
    split
    · simp [exceptOk]
    · simp [exceptOk]
  | replace r ident off =>
    simp only [applyMgrOp, replaceRange]
    split
    · simp [exceptOk]
    · simp [exceptOk]
  | lookup a =>
    simp [applyMgrOp, MgrOp.isMutation]

/-- Witness for C5: a successful insert on the empty manager moves the
generation from 0 to 1. -/
theorem generation_monotone_and_exact_witness :
    ((applyMgrOp (fun _ => 0) ManagerState.empty
          (MgrOp.insert ⟨0, 1⟩ 0 0)).1 = true ∧
        (MgrOp.insert ⟨0, 1⟩ 0 0).isMutation = true) ∧
      (applyMgrOp (fun _ => 0) ManagerState.empty
          (MgrOp.insert ⟨0, 1⟩ 0 0)).2.gen = ManagerState.empty.gen + 1 :=
  ⟨⟨by decide, by decide⟩,
    (generation_monotone_and_exact (fun _ => 0) ManagerState.empty
        (MgrOp.insert ⟨0, 1⟩ 0 0)).2 (by decide) (by decide)⟩

/-- C7: the concrete scenario of §8 — insert `[0x1000, 0x2000)` backed by
object `A = 0` at offset 0, translate `0x1500` to A's base + `0x500`;
insert the adjacent `[0x2000, 0x3000)` at offset `0x1000`, translate
`0x2000` to A's base + `0x1000`; inserting `[0x1800, 0x2800)` fails with
`OverlapConflict`; after removing `[0x1000, 0x2000)`, `0x1500` faults while
`0x2500` still translates. -/
theorem concrete_scenario_flow (f : Nat → Nat) :
    exceptOk (insertRange f ManagerState.empty ⟨0x1000, 0x2000⟩ 0 0).1 = true ∧
      translateAddr (scnSt1 f) 0x1500 = some (f 0 + 0x500) ∧
      exceptOk (insertRange f (scnSt1 f) ⟨0x2000, 0x3000⟩ 0 0x1000).1 = true ∧
      translateAddr (scnSt2 f) 0x2000 = some (f 0 + 0x1000) ∧
      (insertRange f (scnSt2 f) ⟨0x1800, 0x2800⟩ 0 0).1 =
        .error .OverlapConflict ∧
      exceptOk (removeRange (scnSt2 f) ⟨0x1000, 0x2000⟩).1 = true ∧
      translateAddr (scnSt3 f) 0x1500 = none ∧
      (translateAddr (scnSt3 f) 0x2500).isSome = true := by
  refine ⟨rfl, ?_, rfl, ?_, ?_, rfl, rfl, rfl⟩
  · have h : translateAddr (scnSt1 f) 0x1500 =
        some (f 0 + 0 + (0x1500 - 0x1000)) := rfl
    simpa using h
  · have h : translateAddr (scnSt2 f) 0x2000 =
        some (f 0 + 0x1000 + (0x2000 - 0x2000)) := rfl
    simpa using h
  · have hany : (scnSt2 f).table.any
        (fun e => GuestRange.overlaps ⟨0x1800, 0x2800⟩ e.range) = true := rfl
    simp [insertRange, hany]

end Membacking

namespace Membacking

/-- Two ranges that both contain an address overlap. -/
theorem contains_contains_overlaps {r1 r2 : GuestRange} {a : Nat}
    (h1 : r1.containsAddr a = true) (h2 : r2.containsAddr a = true) :
    r1.overlaps r2 = true := by
  simp only [GuestRange.containsAddr, Bool.and_eq_true, decide_eq_true_eq] at h1 h2
  simp only [GuestRange.overlaps, Bool.and_eq_true, decide_eq_true_eq]
  omega

/-- A successful `insertAll` appends exactly the requested
(range, identity, offset) triples, newest first, to the table. -/
theorem insertAll_map_entryReq (objBase : Nat → Nat) :
    ∀ (reqs : List (GuestRange × Nat × Nat)) (st st' : ManagerState),
      insertAll objBase reqs st = some st' →
      st'.table.map entryReq = reqs.reverse ++ st.table.map entryReq := by
  intro reqs
  induction reqs with
  | nil =>
    intro st st' h
    simp only [insertAll, Option.some.injEq] at h
    subst h
    simp
  | cons req rest ih =>
    intro st st' h
    simp only [insertAll] at h
    by_cases hov : st.table.any (fun e => req.1.overlaps e.range) = true
    · simp [insertRange, hov] at h
    · have hfalse : st.table.any (fun e => req.1.overlaps e.range) = false :=
        Bool.not_eq_true _ ▸ hov
      simp only [insertRange, hfalse, Bool.false_eq_true, if_false] at h
      have hrec := ih _ _ h
      rw [hrec]
      simp [entryReq, List.append_assoc]

/-- A successful `insertAll` preserves the non-overlap table invariant. -/
theorem insertAll_tableOk (objBase : Nat → Nat) :
    ∀ (reqs : List (GuestRange × Nat × Nat)) (st st' : ManagerState),
      tableOk st → insertAll objBase reqs st = some st' → tableOk st' := by
  intro reqs
  induction reqs with
  | nil =>
    intro st st' hok h
    simp only [insertAll, Option.some.injEq] at h
    subst h
    exact hok
  | cons req rest ih =>
    intro st st' hok h
    simp only [insertAll] at h
    by_cases hov : st.table.any (fun e => req.1.overlaps e.range) = true
    · simp [insertRange, hov] at h
    · have hfalse : st.table.any (fun e => req.1.overlaps e.range) = false :=
        Bool.not_eq_true _ ▸ hov
      simp only [insertRange, hfalse, Bool.false_eq_true, if_false] at h
      refine ih _ _ ?_ h
      refine List.pairwise_cons.2 ⟨fun e he => ?_, hok⟩
      have hne := List.any_eq_false.1 hfalse e he
      simpa using hne

/-- In a pairwise non-overlapping table, the entry found for an address is
the (unique) member entry whose range contains it. -/
theorem find_unique_container :
    ∀ (l : List MappingEntry),
      l.Pairwise (fun e1 e2 => e1.range.overlaps e2.range = false) →
      ∀ e ∈ l, ∀ a : Nat, e.range.containsAddr a = true →
        l.find? (fun e' => e'.range.containsAddr a) = some e := by
  intro l
  induction l with
  | nil => simp
  | cons hd tl ih =>
    intro hpw e he a hcont
    rw [List.pairwise_cons] at hpw
    cases List.mem_cons.1 he with
    | inl heq =>
      subst heq
      exact List.find?_cons_of_pos tl hcont
    | inr htl =>
      have hhd : ¬ hd.range.containsAddr a = true := by
        intro h'
        have hovl := contains_contains_overlaps h' hcont
        rw [hpw.1 e htl] at hovl
        exact Bool.false_ne_true hovl
      have hstep : List.find? (fun e' => e'.range.containsAddr a) (hd :: tl) =
          List.find? (fun e' => e'.range.containsAddr a) tl :=
        List.find?_cons_of_neg tl hhd
      rw [hstep]
      exact ih hpw.2 e htl a hcont

/-- C3: after any sequence of successful (hence pairwise non-overlapping)
inserts starting from the empty manager, looking up an address inside one
of the inserted ranges returns that range's entry (same range, identity,
and object offset), and looking up an address inside none of them returns
`NotMapped`. -/
theorem lookup_after_nonoverlapping_inserts (objBase : Nat → Nat)
    (reqs : List (GuestRange × Nat × Nat)) (st : ManagerState)
    (h : insertAll objBase reqs ManagerState.empty = some st) :
    (∀ req ∈ reqs, ∀ a : Nat, req.1.containsAddr a = true →
      ∃ e : MappingEntry, lookupAddr st a = some e ∧ e.range = req.1 ∧
        e.identity = req.2.1 ∧ e.objectOffset = req.2.2) ∧
    ∀ a : Nat, (∀ req ∈ reqs, req.1.containsAddr a = false) →
      lookupAddr st a = none := by
  have hmap := insertAll_map_entryReq objBase reqs ManagerState.empty st h
  have hok : tableOk st :=
    insertAll_tableOk objBase reqs ManagerState.empty st
      (List.Pairwise.nil) h
  rw [show ManagerState.empty.table.map entryReq = [] from rfl,
    List.append_nil] at hmap
  constructor
  · intro req hreq a hcont
    have hmem : req ∈ st.table.map entryReq := by
      rw [hmap]
      exact List.mem_reverse.2 hreq
    rcases List.mem_map.1 hmem with ⟨e, he, hereq⟩
    have hrange : e.range = req.1 := congrArg Prod.fst hereq
    have hident : e.identity = req.2.1 := congrArg (Prod.fst ∘ Prod.snd) hereq
    have hoff : e.objectOffset = req.2.2 := congrArg (Prod.snd ∘ Prod.snd) hereq
    have hcont' : e.range.containsAddr a = true := hrange ▸ hcont
    exact ⟨e, find_unique_container st.table hok e he a hcont', hrange,
      hident, hoff⟩
  · intro a hnone
    cases hfind : lookupAddr st a with
    | none => rfl
    | some e' =>
      have hfind' : st.table.find? (fun e => e.range.containsAddr a) =
          some e' := hfind
      have hmem := List.mem_of_find?_eq_some hfind'
      have hcont : e'.range.containsAddr a = true := by
        have hbeta := List.find?_some hfind'
        simpa using hbeta
      have hreq : entryReq e' ∈ reqs := by
        have h1 : entryReq e' ∈ st.table.map entryReq :=
          List.mem_map_of_mem entryReq hmem
        rw [hmap] at h1
        exact List.mem_reverse.1 h1
      have hfalse := hnone (entryReq e') hreq
      rw [show (entryReq e').1 = e'.range from rfl] at hfalse
      rw [hfalse] at hcont
      exact absurd hcont Bool.false_ne_true

end Membacking

namespace Membacking

/-- Witness for C3: two disjoint inserts, looked up afterwards. -/
theorem lookup_after_nonoverlapping_inserts_witness :
    insertAll (fun _ => 0)
        [(⟨0x1000, 0x2000⟩, 1, 0), (⟨0x3000, 0x4000⟩, 2, 0)]
        ManagerState.empty =
      some ⟨[⟨⟨0x3000, 0x4000⟩, 2, 0, 0, 2⟩, ⟨⟨0x1000, 0x2000⟩, 1, 0, 0, 1⟩],
        2, ⟨[⟨2, 0, 1⟩, ⟨1, 0, 1⟩], 2, 0⟩⟩ ∧
    ((∀ req ∈ [((⟨0x1000, 0x2000⟩ : GuestRange), 1, 0),
        (⟨0x3000, 0x4000⟩, 2, 0)], ∀ a : Nat, req.1.containsAddr a = true →
        ∃ e : MappingEntry,
          lookupAddr
            ⟨[⟨⟨0x3000, 0x4000⟩, 2, 0, 0, 2⟩, ⟨⟨0x1000, 0x2000⟩, 1, 0, 0, 1⟩],
              2, ⟨[⟨2, 0, 1⟩, ⟨1, 0, 1⟩], 2, 0⟩⟩ a = some e ∧
            e.range = req.1 ∧ e.identity = req.2.1 ∧
            e.objectOffset = req.2.2) ∧
      ∀ a : Nat, (∀ req ∈ [((⟨0x1000, 0x2000⟩ : GuestRange), 1, 0),
          (⟨0x3000, 0x4000⟩, 2, 0)], req.1.containsAddr a = false) →
        lookupAddr
          ⟨[⟨⟨0x3000, 0x4000⟩, 2, 0, 0, 2⟩, ⟨⟨0x1000, 0x2000⟩, 1, 0, 0, 1⟩],
            2, ⟨[⟨2, 0, 1⟩, ⟨1, 0, 1⟩], 2, 0⟩⟩ a = none) :=
  ⟨by decide,
    lookup_after_nonoverlapping_inserts (fun _ => 0)
      [(⟨0x1000, 0x2000⟩, 1, 0), (⟨0x3000, 0x4000⟩, 2, 0)]
      ⟨[⟨⟨0x3000, 0x4000⟩, 2, 0, 0, 2⟩, ⟨⟨0x1000, 0x2000⟩, 1, 0, 0, 1⟩],
        2, ⟨[⟨2, 0, 1⟩, ⟨1, 0, 1⟩], 2, 0⟩⟩ (by decide)⟩

end Membacking

namespace Membacking

/-- Running a concatenated operation sequence runs the two halves in
order. -/
theorem applyCacheOps_append (objBase : Nat → Nat) :
    ∀ (l1 l2 : List CacheOp) (st : CacheState),
      applyCacheOps objBase (l1 ++ l2) st =
        applyCacheOps objBase l2 (applyCacheOps objBase l1 st) := by
  intro l1
  induction l1 with
  | nil => intro l2 st; rfl
  | cons op rest ih =>
    intro l2 st
    simp only [List.cons_append, applyCacheOps]
    exact ih l2 (applyCacheOp objBase op st)

/-- One cache operation preserves the one-handle-per-identity invariant. -/
theorem identsNodup_applyCacheOp (objBase : Nat → Nat) (op : CacheOp)
    (st : CacheState) (h : identsNodup st) :
    identsNodup (applyCacheOp objBase op st) := by
  cases op with
  | acq i =>
    simp only [applyCacheOp, acquire]
    cases hf : st.findEntry i with
    | some e =>
      simp only [identsNodup] at h ⊢
      rw [List.map_map]
      have hsame : st.entries.map
          ((fun e => e.identity) ∘ fun e' =>
            if e'.identity == i then { e' with refs := e'.refs + 1 } else e') =
          st.entries.map (fun e => e.identity) := by
        apply List.map_congr_left
        intro e' _
        simp only [Function.comp_apply]
        split <;> rfl
      rw [hsame]
      exact h
    | none =>
      simp only [identsNodup] at h ⊢
      simp only [List.map_cons]
      refine List.nodup_cons.2 ⟨?_, h⟩
      intro hmem
      rcases List.mem_map.1 hmem with ⟨e, he, hei⟩
      have hf' : st.entries.find? (fun e => e.identity == i) = none := hf
      have hne := List.find?_eq_none.1 hf' e he
      exact hne (by simp [hei])
  | rel i =>
    simp only [applyCacheOp, release]
    cases hf : st.findEntry i with
    | some e =>
      by_cases hr : e.refs ≤ 1
      · simp only [hf, hr, if_pos]
        simp only [identsNodup] at h ⊢
        exact ((List.filter_sublist st.entries).map
          (fun e => e.identity)).nodup h
      · simp only [hf, hr, if_neg, not_false_iff]
        simp only [identsNodup] at h ⊢
        rw [List.map_map]
        have hsame : st.entries.map
            ((fun e => e.identity) ∘ fun e' =>
              if e'.identity == i then { e' with refs := e'.refs - 1 } else e') =
            st.entries.map (fun e => e.identity) := by
          apply List.map_congr_left
          intro e' _
          simp only [Function.comp_apply]
          split <;> rfl
        rw [hsame]
        exact h
    | none =>
      simpa using h

/-- A cache-operation sequence preserves the one-handle-per-identity
invariant. -/
theorem identsNodup_applyCacheOps (objBase : Nat → Nat) :
    ∀ (ops : List CacheOp) (st : CacheState), identsNodup st →
      identsNodup (applyCacheOps objBase ops st) := by
  intro ops
  induction ops with
  | nil => intro st h; exact h
  | cons op rest ih =>
    intro st h
    exact ih _ (identsNodup_applyCacheOp objBase op st h)

end Membacking

namespace Membacking

/-- Acquiring an identity with no open handle opens a fresh handle with
reference count 1. -/
theorem acquire_absent (objBase : Nat → Nat) (ident : Nat) (st : CacheState)
    (hf : st.findEntry ident = none) :
    acquire objBase ident st =
      ⟨⟨ident, objBase ident, 1⟩ :: st.entries, st.opens + 1, st.closes⟩ := by
  simp [acquire, hf]

/-- Acquiring an identity whose handle heads the entry list (and occurs
nowhere else) bumps its reference count without opening. -/
theorem acquire_head (objBase : Nat → Nat) (ident b r o c : Nat)
    (rest : List CacheEntry)
    (hclean : ∀ e ∈ rest, (e.identity == ident) = false) :
    acquire objBase ident ⟨⟨ident, b, r⟩ :: rest, o, c⟩ =
      ⟨⟨ident, b, r + 1⟩ :: rest, o, c⟩ := by
  have hfind : CacheState.findEntry ⟨⟨ident, b, r⟩ :: rest, o, c⟩ ident =
      some ⟨ident, b, r⟩ := by
    simp [CacheState.findEntry]
  simp only [acquire, hfind, List.map_cons]
  have hhd : (if (⟨ident, b, r⟩ : CacheEntry).identity == ident then
      (⟨ident, b, r + 1⟩ : CacheEntry) else ⟨ident, b, r⟩) =
      ⟨ident, b, r + 1⟩ := by
    simp
  have hrest : rest.map (fun e' =>
      if e'.identity == ident then { e' with refs := e'.refs + 1 } else e') =
      rest := by
    conv_rhs => rw [← List.map_id rest]
    apply List.map_congr_left
    intro e he
    simp [hclean e he]
  rw [hrest]
  simp

/-- Repeated acquires on a headed handle add to its reference count. -/
theorem acquireN_head (objBase : Nat → Nat) (ident b o c : Nat)
    (rest : List CacheEntry)
    (hclean : ∀ e ∈ rest, (e.identity == ident) = false) :
    ∀ (n r : Nat),
      applyCacheOps objBase (List.replicate n (.acq ident))
          ⟨⟨ident, b, r⟩ :: rest, o, c⟩ =
        ⟨⟨ident, b, r + n⟩ :: rest, o, c⟩ := by
  intro n
  induction n with
  | zero => intro r; simp [applyCacheOps]
  | succ m ih =>
    intro r
    rw [List.replicate_succ]
    simp only [applyCacheOps, applyCacheOp]
    rw [acquire_head objBase ident b r o c rest hclean]
    rw [ih (r + 1)]
    have : r + 1 + m = r + (m + 1) := by omega
    rw [this]

/-- N ≥ 1 acquires of an absent identity open the object exactly once,
leave the reference count at N, and perform no close. -/
theorem acquireN_absent (objBase : Nat → Nat) (ident : Nat) (st : CacheState)
    (hf : st.findEntry ident = none) :
    ∀ n : Nat, 1 ≤ n →
      applyCacheOps objBase (List.replicate n (.acq ident)) st =
        ⟨⟨ident, objBase ident, n⟩ :: st.entries, st.opens + 1, st.closes⟩ := by
  have hclean : ∀ e ∈ st.entries, (e.identity == ident) = false := by
    intro e he
    have hf' : st.entries.find? (fun e => e.identity == ident) = none := hf
    have hne := List.find?_eq_none.1 hf' e he
    simpa using hne
  intro n hn
  cases n with
  | zero => omega
  | succ m =>
    rw [List.replicate_succ]
    simp only [applyCacheOps, applyCacheOp]
    rw [acquire_absent objBase ident st hf]
    rw [acquireN_head objBase ident (objBase ident) (st.opens + 1) st.closes
      st.entries hclean m 1]
    have : 1 + m = m + 1 := by omega
    rw [this]

/-- Releasing a headed handle with reference count above one decrements it
without closing. -/
theorem release_head_dec (ident b r o c : Nat) (rest : List CacheEntry)
    (hclean : ∀ e ∈ rest, (e.identity == ident) = false)
    (hr : ¬ r ≤ 1) :
    release ident ⟨⟨ident, b, r⟩ :: rest, o, c⟩ =
      ⟨⟨ident, b, r - 1⟩ :: rest, o, c⟩ := by
  have hfind : CacheState.findEntry ⟨⟨ident, b, r⟩ :: rest, o, c⟩ ident =
      some ⟨ident, b, r⟩ := by
    simp [CacheState.findEntry]
  simp only [release, hfind, hr, if_neg, not_false_iff, List.map_cons]
  have hrest : rest.map (fun e' =>
      if e'.identity == ident then { e' with refs := e'.refs - 1 } else e') =
      rest := by
    conv_rhs => rw [← List.map_id rest]
    apply List.map_congr_left
    intro e he
    simp [hclean e he]
  rw [hrest]
  simp

/-- Releasing a headed handle with reference count one closes the object
and evicts the handle. -/
theorem release_head_close (ident b o c : Nat) (rest : List CacheEntry)
    (hclean : ∀ e ∈ rest, (e.identity == ident) = false) :
    release ident ⟨⟨ident, b, 1⟩ :: rest, o, c⟩ = ⟨rest, o, c + 1⟩ := by
  have hfind : CacheState.findEntry ⟨⟨ident, b, 1⟩ :: rest, o, c⟩ ident =
      some ⟨ident, b, 1⟩ := by
    simp [CacheState.findEntry]
  simp only [release, hfind, le_refl, if_pos, List.filter_cons]
  have hrest : rest.filter (fun e' => !(e'.identity == ident)) = rest := by
    apply List.filter_eq_self.2
    intro e he
    simp [hclean e he]
  simp [hrest]

/-- k < r releases on a headed handle decrement its reference count to
r - k without closing. -/
theorem releaseN_head (ident b o c : Nat) (rest : List CacheEntry)
    (hclean : ∀ e ∈ rest, (e.identity == ident) = false) :
    ∀ (k r : Nat), k < r →
      applyCacheOps objBase (List.replicate k (.rel ident))
          ⟨⟨ident, b, r⟩ :: rest, o, c⟩ =
        ⟨⟨ident, b, r - k⟩ :: rest, o, c⟩ := by
  intro k
  induction k with
  | zero => intro r _; simp [applyCacheOps]
  | succ m ih =>
    intro r hk
    rw [List.replicate_succ]
    simp only [applyCacheOps, applyCacheOp]
    rw [release_head_dec ident b r o c rest hclean (by omega)]
    rw [ih (r - 1) (by omega)]
    have : r - 1 - m = r - (m + 1) := by omega
    rw [this]

/-- Exactly r releases on a handle whose reference count is r ≥ 1 close the
object exactly once and evict the handle. -/
theorem releaseN_exact (ident b o c : Nat) (rest : List CacheEntry)
    (hclean : ∀ e ∈ rest, (e.identity == ident) = false) :
    ∀ r : Nat, 1 ≤ r →
      applyCacheOps objBase (List.replicate r (.rel ident))
          ⟨⟨ident, b, r⟩ :: rest, o, c⟩ = ⟨rest, o, c + 1⟩ := by
  intro r
  induction r with
  | zero => omega
  | succ m ih =>
    intro _
    rw [List.replicate_succ]
    simp only [applyCacheOps, applyCacheOp]
    cases Nat.eq_zero_or_pos m with
    | inl hm0 =>
      subst hm0
      rw [release_head_close ident b o c rest hclean]
      simp [applyCacheOps]
    | inr hmpos =>
      rw [release_head_dec ident b (m + 1) o c rest hclean (by omega)]
      have : m + 1 - 1 = m := by omega
      rw [this]
      exact ih hmpos

end Membacking

namespace Membacking

/-- C6: every reachable object-cache state has at most one open handle per
identity, and N matched acquire/release pairs on an absent identity open
the backing object exactly once (reference count N after the acquires),
close nothing while k < N releases have happened, and close exactly once —
evicting the handle — at the Nth release. -/
theorem object_cache_single_open_refcount (objBase : Nat → Nat)
    (ops : List CacheOp) (st : CacheState) (ident n k : Nat)
    (habs : st.findEntry ident = none) (hn : 1 ≤ n) (hk : k < n) :
    identsNodup (applyCacheOps objBase ops CacheState.empty) ∧
      applyCacheOps objBase (List.replicate n (.acq ident)) st =
        ⟨⟨ident, objBase ident, n⟩ :: st.entries, st.opens + 1, st.closes⟩ ∧
      applyCacheOps objBase
          (List.replicate n (.acq ident) ++ List.replicate k (.rel ident))
          st =
        ⟨⟨ident, objBase ident, n - k⟩ :: st.entries, st.opens + 1,
          st.closes⟩ ∧
      applyCacheOps objBase
          (List.replicate n (.acq ident) ++ List.replicate n (.rel ident))
          st =
        ⟨st.entries, st.opens + 1, st.closes + 1⟩ := by
  have hclean : ∀ e ∈ st.entries, (e.identity == ident) = false := by
    intro e he
    have hf' : st.entries.find? (fun e => e.identity == ident) = none := habs
    have hne := List.find?_eq_none.1 hf' e he
    simpa using hne
  have hacq := acquireN_absent objBase ident st habs n hn
  refine ⟨identsNodup_applyCacheOps objBase ops CacheState.empty
    (by simp [identsNodup, CacheState.empty]), hacq, ?_, ?_⟩
  · rw [applyCacheOps_append, hacq,
      releaseN_head ident (objBase ident) (st.opens + 1) st.closes st.entries
        hclean k n hk]
  · rw [applyCacheOps_append, hacq,
      releaseN_exact ident (objBase ident) (st.opens + 1) st.closes st.entries
        hclean n hn]

/-- Witness for C6: two acquires and releases of identity 1 on the empty
cache. -/
theorem object_cache_single_open_refcount_witness :
    (CacheState.empty.findEntry 1 = none ∧ 1 ≤ 2 ∧ 1 < 2) ∧
      (identsNodup (applyCacheOps (fun i => 100 + i)
          [CacheOp.acq 3, CacheOp.rel 3] CacheState.empty) ∧
        applyCacheOps (fun i => 100 + i)
            (List.replicate 2 (.acq 1)) CacheState.empty =
          ⟨⟨1, (fun i => 100 + i) 1, 2⟩ :: CacheState.empty.entries,
            CacheState.empty.opens + 1, CacheState.empty.closes⟩ ∧
        applyCacheOps (fun i => 100 + i)
            (List.replicate 2 (.acq 1) ++ List.replicate 1 (.rel 1))
            CacheState.empty =
          ⟨⟨1, (fun i => 100 + i) 1, 2 - 1⟩ :: CacheState.empty.entries,
            CacheState.empty.opens + 1, CacheState.empty.closes⟩ ∧
        applyCacheOps (fun i => 100 + i)
            (List.replicate 2 (.acq 1) ++ List.replicate 2 (.rel 1))
            CacheState.empty =
          ⟨CacheState.empty.entries, CacheState.empty.opens + 1,
            CacheState.empty.closes + 1⟩) :=
  ⟨⟨by decide, by decide, by decide⟩,
    object_cache_single_open_refcount (fun i => 100 + i)
      [CacheOp.acq 3, CacheOp.rel 3] CacheState.empty 1 2 1
      (by decide) (by decide) (by decide)⟩

end Membacking

namespace Membacking

/-- `removeFirst` yields a sublist. -/
theorem removeFirst_sublist {α : Type} [DecidableEq α] (e : α) :
    ∀ l : List α, (removeFirst e l).Sublist l := by
  intro l
  induction l with
  | nil => exact List.Sublist.refl []
  | cons x xs ih =>
    simp only [removeFirst]
    split
    · exact List.sublist_cons_self x xs
    · exact ih.cons₂ x

/-- A list with a member is a permutation of that member consed onto the
list with its first occurrence removed. -/
theorem perm_cons_removeFirst {α : Type} [DecidableEq α] {e : α}
    {l : List α} (he : e ∈ l) : l.Perm (e :: removeFirst e l) := by
  induction l with
  | nil => exact absurd he (List.not_mem_nil e)
  | cons x xs ih =>
    by_cases hx : x = e
    · subst hx
      simp only [removeFirst, if_pos rfl]
      exact List.Perm.refl _
    · have he' : e ∈ xs := by
        rcases List.mem_cons.1 he with rfl | h
        · exact absurd rfl hx
        · exact h
      simp only [removeFirst, if_neg hx]
      exact ((ih he').cons x).trans (List.Perm.swap e x (removeFirst e xs))

/-- One quiesce-protocol step preserves the safety invariant. -/
theorem qinv_step (st st' : QuiesceState) (hinv : QInv st)
    (h : QStep st st') : QInv st' := by
  obtain ⟨hnd, hlive, hrd⟩ := hinv
  cases h with
  | beginTranslate e he =>
    refine ⟨hnd, hlive, ?_⟩
    intro va hva
    dsimp only at hva ⊢
    rcases List.mem_cons.1 hva with rfl | hva'
    · exact hlive _ (List.mem_map_of_mem Prod.snd (List.mem_append_left _ he))
    · exact hrd _ hva'
  | endTranslate va hv =>
    refine ⟨hnd, hlive, ?_⟩
    intro v hv'
    dsimp only at hv' ⊢
    exact hrd _ ((removeFirst_sublist va st.readers).subset hv')
  | beginRemove e he =>
    have hperm : (removeFirst e st.mapped ++ e :: st.removing).Perm
        (st.mapped ++ st.removing) := by
      refine List.Perm.trans List.perm_middle ?_
      have hp := ((perm_cons_removeFirst he).append_right st.removing).symm
      simpa using hp
    have hpm := hperm.map Prod.snd
    refine ⟨hpm.nodup_iff.2 hnd, ?_, hrd⟩
    intro va hva
    dsimp only at hva
    exact hlive _ (hpm.mem_iff.1 hva)
  | completeRemove e he hq =>
    have hsub : (st.mapped ++ removeFirst e st.removing).Sublist
        (st.mapped ++ st.removing) :=
      (List.Sublist.refl _).append (removeFirst_sublist e st.removing)
    have hsubm := hsub.map Prod.snd
    refine ⟨hsubm.nodup hnd, ?_, ?_⟩
    · intro va hva
      dsimp only at hva ⊢
      have hnf : va ∉ st.freed := hlive _ (hsubm.subset hva)
      intro hmem
      rcases List.mem_cons.1 hmem with rfl | hmem'
      · have hva' := hva
        rw [List.map_append] at hva'
        have hnd' := hnd
        rw [List.map_append] at hnd'
        obtain ⟨hnd1, hnd2, hdisj⟩ := List.nodup_append.1 hnd'
        have he2 : e.2 ∈ st.removing.map Prod.snd :=
          List.mem_map_of_mem Prod.snd he
        rcases List.mem_append.1 hva' with hin | hin
        · exact hdisj hin he2
        · have hpr := (perm_cons_removeFirst he).map Prod.snd
          have hndc := hpr.nodup_iff.1 hnd2
          rw [List.map_cons] at hndc
          exact (List.nodup_cons.1 hndc).1 hin
      · exact hnf hmem'
    · intro va hva
      intro hmem
      dsimp only at hva hmem
      rcases List.mem_cons.1 hmem with rfl | hmem'
      · exact hq hva
      · exact hrd _ hva hmem'

/-- C1: in every state the removal-quiesce protocol can reach from an
initial state, no in-flight VaMapper translation cites a host virtual
address whose backing mapping has been torn down — teardown happens only
after the quiesce for that range completes. -/
theorem remove_quiesce_never_frees_cited_va (st0 st : QuiesceState)
    (hinit : QInit st0)
    (hreach : Relation.ReflTransGen QStep st0 st) :
    ∀ va ∈ st.readers, va ∉ st.freed := by
  have hinv0 : QInv st0 := by
    obtain ⟨hr, hrm, hf, hnd⟩ := hinit
    refine ⟨?_, ?_, ?_⟩
    · rw [hrm]
      simpa using hnd
    · intro va _
      rw [hf]
      exact List.not_mem_nil va
    · intro va hva
      rw [hr] at hva
      exact absurd hva (List.not_mem_nil va)
  have hinv : QInv st := by
    induction hreach with
    | refl => exact hinv0
    | tail hsteps hstep ih => exact qinv_step _ _ ih hstep
  exact hinv.2.2

/-- Witness for C1: a remove of the only mapping of `qSample` runs its
quiesce (no reader in flight) and tears the mapping down; in the resulting
state no reader cites the freed address. -/
theorem remove_quiesce_never_frees_cited_va_witness :
    QInit qSample ∧
      ∀ va ∈ (⟨[], [], [], [0x7000]⟩ : QuiesceState).readers,
        va ∉ (⟨[], [], [], [0x7000]⟩ : QuiesceState).freed := by
  have h1 : QStep qSample ⟨[], [(⟨0x1000, 0x2000⟩, 0x7000)], [], []⟩ :=
    QStep.beginRemove (⟨0x1000, 0x2000⟩, 0x7000) (by decide)
  have h2 : QStep ⟨[], [(⟨0x1000, 0x2000⟩, 0x7000)], [], []⟩
      ⟨[], [], [], [0x7000]⟩ :=
    QStep.completeRemove (⟨0x1000, 0x2000⟩, 0x7000) (by decide) (by decide)
  have hinit : QInit qSample := ⟨rfl, rfl, rfl, by decide⟩
  exact ⟨hinit,
    remove_quiesce_never_frees_cited_va qSample ⟨[], [], [], [0x7000]⟩ hinit
      ((Relation.ReflTransGen.refl.tail h1).tail h2)⟩

end Membacking
